import Mathlib

/-!
Verification of the PDM encoder in `src/pdm/src/lib.rs`.

The Rust code works on `f64`, modeled here by `ℚ`: every claim proved below is
either about values on which the `f64` arithmetic is exact (curve values in
`{-1, 0, 1}`, accumulator updates by `± 1.0`) or is a control-flow, length or
packing property insensitive to rounding.  Properties about the numeric range
of the accumulator under arbitrary in-range curves depend on IEEE-754 rounding
and are outside this model.  Panics (the `assert_eq!` precondition check, the
heapless `Vec::from_iter` capacity-overflow panic, and `%` by zero) are modeled
by `Option`, with `none` standing for a fault.
-/

namespace Pdm

/-- One iteration of the closure in `generate` (src/pdm/src/lib.rs lines 38-46):
`qe += v; if qe > 0.0 { qe -= 1.0; emit 1 } else { qe += 1.0; emit 0 }`.
Returns the emitted bit and the updated accumulator. -/
def pdmStep (qe v : ℚ) : Nat × ℚ :=
  if qe + v > 0 then (1, qe + v - 1) else (0, qe + v + 1)

/-- The bit-emission loop of `generate`: maps `curve` over indices `i, i+1, ...`
for `n` steps, threading the accumulator `qe` exactly as the Rust closure does. -/
def pdmLoop (curve : Nat → ℚ) : ℚ → Nat → Nat → List Nat
  | _, _, 0 => []
  | qe, i, n + 1 =>
      (pdmStep qe (curve i)).1 :: pdmLoop curve (pdmStep qe (curve i)).2 (i + 1) n

/-- The `N` modulation bits produced by `generate` before packing:
`(0..N).map(curve).map(|v| ...)` with accumulator starting at `0.0`. -/
def pdmBits (N : Nat) (curve : Nat → ℚ) : List Nat :=
  pdmLoop curve 0 0 N

/-- The accumulator value before step `i` of the loop (after `i` completed steps). -/
def qeAfter (curve : Nat → ℚ) : Nat → ℚ
  | 0 => 0
  | i + 1 => (pdmStep (qeAfter curve i) (curve i)).2

/-- The bit emitted at step `i` of the loop, expressed through `qeAfter`. -/
def bitAt (curve : Nat → ℚ) (i : Nat) : Nat :=
  (pdmStep (qeAfter curve i) (curve i)).1

/-- `x.iter().fold(0u8, |res, b| (res << 1) ^ *b)` from src/pdm/src/lib.rs line 49;
`res << 1` on a `u8` keeps the low 8 bits, hence the `% 256`. -/
def packByte (chunk : List Nat) : Nat :=
  chunk.foldl (fun res b => ((res <<< 1) % 256) ^^^ b) 0

/-- `array_chunks::<8>` from src/pdm/src/lib.rs line 48: consecutive chunks of
exactly 8 elements, any remainder dropped. -/
def chunksExact8 : List Nat → List (List Nat)
  | b0 :: b1 :: b2 :: b3 :: b4 :: b5 :: b6 :: b7 :: rest =>
      [b0, b1, b2, b3, b4, b5, b6, b7] :: chunksExact8 rest
  | _ => []

/-- `generate::<N, N_8>` from src/pdm/src/lib.rs lines 32-52.
`none` models a panic: the `assert_eq!(N % 8, 0)` fires, or the final
`collect::<Vec<u8, N_8>>()` overflows its capacity (heapless `from_iter`
panics when more than `N_8` bytes are pushed).  The intermediate
`collect::<Vec<u8, N>>()` receives exactly `N` bits and can never overflow. -/
def generate (N N_8 : Nat) (curve : Nat → ℚ) : Option (List Nat) :=
  if N % 8 = 0 then
    let bytes := (chunksExact8 (pdmBits N curve)).map packByte
    if bytes.length ≤ N_8 then some bytes else none
  else
    none

/-- `square_idx::<N>` from src/pdm/src/lib.rs lines 57-63.
`none` models the panic of `index % N` when `N = 0`. -/
def square_idx (N index : Nat) : Option ℚ :=
  if N = 0 then none
  else some (if index % N < N / 2 then -1 else 1)

/-- The value `square_idx::<N>` returns on its non-panicking path (`N > 0`):
`if (index % N) < (N / 2) { -1.0 } else { 1.0 }`. -/
def square_idxVal (N index : Nat) : ℚ :=
  if index % N < N / 2 then -1 else 1

/-- The packing fold as the spec words it: "byte = byte shifted left by 1,
combined (XOR) with the next bit", with no `u8` wraparound mentioned. -/
def packSpec (chunk : List Nat) : Nat :=
  chunk.foldl (fun res b => (res <<< 1) ^^^ b) 0

theorem square_idx_pos (N index : Nat) (hN : N ≠ 0) :
    square_idx N index = some (square_idxVal N index) := by
  simp [square_idx, square_idxVal, hN]

theorem pdmLoop_eq_map (curve : Nat → ℚ) :
    ∀ (n i : Nat), pdmLoop curve (qeAfter curve i) i n
      = (List.range n).map (fun j => bitAt curve (i + j)) := by
  intro n
  induction n with
  | zero => intro i; rfl
  | succ n ih =>
      intro i
      have h1 : pdmLoop curve (qeAfter curve i) i (n + 1)
          = bitAt curve i :: pdmLoop curve (qeAfter curve (i + 1)) (i + 1) n := rfl
      rw [h1, ih (i + 1), List.range_succ_eq_map, List.map_cons, List.map_map]
      refine List.cons_eq_cons.mpr ⟨by simp, ?_⟩
      apply List.map_congr_left
      intro a ha
      show bitAt curve (i + 1 + a) = bitAt curve (i + (a + 1))
      congr 1
      omega

theorem pdmBits_eq_map (N : Nat) (curve : Nat → ℚ) :
    pdmBits N curve = (List.range N).map (bitAt curve) := by
  have h := pdmLoop_eq_map curve N 0
  simp only [qeAfter, Nat.zero_add] at h
  simpa [pdmBits] using h

theorem pdmBits_length (N : Nat) (curve : Nat → ℚ) :
    (pdmBits N curve).length = N := by
  simp [pdmBits_eq_map]

theorem chunksExact8_length_aux :
    ∀ (fuel : Nat) (l : List Nat), l.length ≤ fuel →
      (chunksExact8 l).length = l.length / 8 := by
  intro fuel
  induction fuel with
  | zero =>
      intro l hl
      rcases l with _ | ⟨b0, rest⟩
      · simp [chunksExact8]
      · simp at hl
  | succ fuel ih =>
      intro l hl
      rcases l with _ | ⟨b0, _ | ⟨b1, _ | ⟨b2, _ | ⟨b3, _ | ⟨b4, _ | ⟨b5, _ |
        ⟨b6, _ | ⟨b7, rest⟩⟩⟩⟩⟩⟩⟩⟩ <;> try (simp [chunksExact8]; done)
      have hr : rest.length ≤ fuel := by simp at hl; omega
      show (chunksExact8 rest).length + 1 = _
      rw [ih rest hr]
      simp only [List.length_cons]
      omega

theorem chunksExact8_length (l : List Nat) :
    (chunksExact8 l).length = l.length / 8 :=
  chunksExact8_length_aux l.length l le_rfl

theorem chunksExact8_getElem :
    ∀ (k : Nat) (l : List Nat), 8 * k + 8 ≤ l.length →
      (chunksExact8 l)[k]? = some ((l.drop (8 * k)).take 8) := by
  intro k
  induction k with
  | zero =>
      intro l hl
      rcases l with _ | ⟨b0, _ | ⟨b1, _ | ⟨b2, _ | ⟨b3, _ | ⟨b4, _ | ⟨b5, _ |
        ⟨b6, _ | ⟨b7, rest⟩⟩⟩⟩⟩⟩⟩⟩ <;> try (exfalso; simp at hl; done)
      show ([b0, b1, b2, b3, b4, b5, b6, b7] :: chunksExact8 rest)[0]? = _
      simp
  | succ k ih =>
      intro l hl
      rcases l with _ | ⟨b0, _ | ⟨b1, _ | ⟨b2, _ | ⟨b3, _ | ⟨b4, _ | ⟨b5, _ |
        ⟨b6, _ | ⟨b7, rest⟩⟩⟩⟩⟩⟩⟩⟩ <;> try (exfalso; simp at hl; done)
      have hr : 8 * k + 8 ≤ rest.length := by simp at hl; omega
      have hdrop : (b0 :: b1 :: b2 :: b3 :: b4 :: b5 :: b6 :: b7 :: rest).drop
          (8 * (k + 1)) = rest.drop (8 * k) := by
        rw [show 8 * (k + 1) = 8 + 8 * k by ring, ← List.drop_drop]
        rfl
      show ([b0, b1, b2, b3, b4, b5, b6, b7] :: chunksExact8 rest)[k + 1]? = _
      rw [List.getElem?_cons_succ, ih rest hr, hdrop]

theorem bitAt_le_one (curve : Nat → ℚ) (i : Nat) : bitAt curve i ≤ 1 := by
  simp only [bitAt, pdmStep]
  split <;> simp

theorem pack_eight (b0 b1 b2 b3 b4 b5 b6 b7 : Nat)
    (h0 : b0 ≤ 1) (h1 : b1 ≤ 1) (h2 : b2 ≤ 1) (h3 : b3 ≤ 1)
    (h4 : b4 ≤ 1) (h5 : b5 ≤ 1) (h6 : b6 ≤ 1) (h7 : b7 ≤ 1) :
    packByte [b0, b1, b2, b3, b4, b5, b6, b7]
      = packSpec [b0, b1, b2, b3, b4, b5, b6, b7] ∧
    ∀ j, j < 8 → (packByte [b0, b1, b2, b3, b4, b5, b6, b7]).testBit (7 - j)
      = decide ([b0, b1, b2, b3, b4, b5, b6, b7].getD j 0 = 1) := by
  interval_cases b0 <;> interval_cases b1 <;> interval_cases b2 <;> interval_cases b3 <;>
    interval_cases b4 <;> interval_cases b5 <;> interval_cases b6 <;> interval_cases b7 <;>
    exact ⟨by decide, by decide⟩

theorem pdmBits_chunk (N : Nat) (curve : Nat → ℚ) (k : Nat) (h : 8 * k + 8 ≤ N) :
    ((pdmBits N curve).drop (8 * k)).take 8
      = (List.range 8).map (fun i => bitAt curve (8 * k + i)) := by
  rw [pdmBits_eq_map]
  apply List.ext_getElem
  · simp
    omega
  · intro i h1 h2
    simp only [List.getElem_take, List.getElem_drop, List.getElem_map,
      List.getElem_range]

/-- **C2**: the encoder reproduces the two square-wave known vectors exactly:
`generate::<16, 2>(square_idx::<4>) = [0b00110011, 0b00110011]` and
`generate::<32, 4>(square_idx::<6>) = [0b00011100, 0b01110001, 0b11000111, 0b00011100]`. -/
theorem generate_known_vectors :
    generate 16 2 (square_idxVal 4) = some [0b00110011, 0b00110011] ∧
    generate 32 4 (square_idxVal 6) =
      some [0b00011100, 0b01110001, 0b11000111, 0b00011100] := by
  constructor <;>
    (norm_num [generate, pdmBits, pdmLoop, pdmStep, square_idxVal, chunksExact8,
      packByte]) <;>
    decide

/-- **C8**: `generate` with `N = 0` and byte count `0` returns the empty byte
sequence for every curve, taking no error path. -/
theorem generate_zero (curve : Nat → ℚ) : generate 0 0 curve = some [] := rfl

/-- **C4**: when `N` is not a multiple of 8, `generate` faults (the
`assert_eq!(N % 8, 0)` fires) and returns no byte sequence at all, for every
curve and every byte-count parameter. -/
theorem generate_assert_fails (N N_8 : Nat) (curve : Nat → ℚ) (hN : N % 8 ≠ 0) :
    generate N N_8 curve = none := by
  simp [generate, hN]

/-- Witness for `generate_assert_fails` at `N = 12`. -/
theorem generate_assert_fails_witness :
    generate 12 2 (fun _ => (0 : ℚ)) = none :=
  generate_assert_fails 12 2 (fun _ => (0 : ℚ)) (by decide)

/-- **C1**: for every `N` that is a multiple of 8, every curve and every `i < N`,
the `i`-th emitted bit follows the first-order delta-sigma rule: the accumulator
starts at `0.0`, step `i` adds `curve i`, emits `1` and decrements the
accumulator exactly when it is strictly positive, else emits `0` and increments
it; in particular, an accumulator of exactly `0.0` after the addition emits `0`. -/
theorem generate_bit_rule (N : Nat) (curve : Nat → ℚ) (i : Nat)
    (hN : N % 8 = 0) (hi : i < N) :
    qeAfter curve 0 = 0 ∧
    (pdmBits N curve)[i]? = some (if qeAfter curve i + curve i > 0 then 1 else 0) ∧
    qeAfter curve (i + 1) =
      (if qeAfter curve i + curve i > 0 then qeAfter curve i + curve i - 1
       else qeAfter curve i + curve i + 1) ∧
    (qeAfter curve i + curve i = 0 → (pdmBits N curve)[i]? = some 0) := by
  have hb : (pdmBits N curve)[i]? = some (bitAt curve i) := by
    rw [pdmBits_eq_map]
    simp [List.getElem?_map, List.getElem?_range, hi]
  have hbit : bitAt curve i = if qeAfter curve i + curve i > 0 then 1 else 0 := by
    simp only [bitAt, pdmStep]
    split <;> rfl
  have hqe : qeAfter curve (i + 1) =
      (if qeAfter curve i + curve i > 0 then qeAfter curve i + curve i - 1
       else qeAfter curve i + curve i + 1) := by
    show (pdmStep (qeAfter curve i) (curve i)).2 = _
    simp only [pdmStep]
    split <;> rfl
  refine ⟨rfl, ?_, hqe, ?_⟩
  · rw [hb, hbit]
  · intro h0
    rw [hb, hbit, if_neg (by rw [h0]; exact lt_irrefl 0)]

/-- Witness for `generate_bit_rule`: the all-zero curve drives the accumulator
to exactly `0.0` at step 0, and the emitted bit is `0`. -/
theorem generate_bit_rule_witness :
    qeAfter (fun _ => (0 : ℚ)) 0 = 0 ∧
    (pdmBits 8 fun _ => (0 : ℚ))[0]? =
      some (if qeAfter (fun _ => (0 : ℚ)) 0 + (fun _ => (0 : ℚ)) 0 > 0 then 1 else 0) ∧
    qeAfter (fun _ => (0 : ℚ)) (0 + 1) =
      (if qeAfter (fun _ => (0 : ℚ)) 0 + (fun _ => (0 : ℚ)) 0 > 0 then
        qeAfter (fun _ => (0 : ℚ)) 0 + (fun _ => (0 : ℚ)) 0 - 1
       else qeAfter (fun _ => (0 : ℚ)) 0 + (fun _ => (0 : ℚ)) 0 + 1) ∧
    (qeAfter (fun _ => (0 : ℚ)) 0 + (fun _ => (0 : ℚ)) 0 = 0 →
      (pdmBits 8 fun _ => (0 : ℚ))[0]? = some 0) :=
  generate_bit_rule 8 (fun _ => (0 : ℚ)) 0 (by decide) (by decide)

/-- **C3**: for every `N` that is a multiple of 8, with byte count `N / 8`,
`generate` returns a byte sequence of length exactly `N / 8`, for every curve. -/
theorem generate_output_length (N : Nat) (curve : Nat → ℚ) (hN : N % 8 = 0) :
    ∃ bytes, generate N (N / 8) curve = some bytes ∧ bytes.length = N / 8 := by
  have hblen : ((chunksExact8 (pdmBits N curve)).map packByte).length = N / 8 := by
    simp [chunksExact8_length, pdmBits_length]
  exact ⟨_, by simp [generate, hN, hblen], hblen⟩

/-- Witness for `generate_output_length` at `N = 16`. -/
theorem generate_output_length_witness :
    ∃ bytes, generate 16 (16 / 8) (fun _ => (0 : ℚ)) = some bytes ∧
      bytes.length = 16 / 8 :=
  generate_output_length 16 (fun _ => (0 : ℚ)) (by decide)

/-- **C5**: the packing is MSB-first: for valid `N` and every `k < N / 8`, byte
`k` of the output is the left-to-right shift-and-xor fold of emitted bits
`8k .. 8k+7`, so bit `j` of the chunk lands in bit `7 - j` of the byte. -/
theorem generate_packing (N : Nat) (curve : Nat → ℚ) (k j : Nat)
    (hN : N % 8 = 0) (hk : k < N / 8) (hj : j < 8) :
    ∃ bytes b, generate N (N / 8) curve = some bytes ∧ bytes[k]? = some b ∧
      b = packSpec ((List.range 8).map fun i => bitAt curve (8 * k + i)) ∧
      b.testBit (7 - j) = decide (bitAt curve (8 * k + j) = 1) := by
  have hlen : (pdmBits N curve).length = N := pdmBits_length N curve
  have hblen : ((chunksExact8 (pdmBits N curve)).map packByte).length = N / 8 := by
    simp [chunksExact8_length, pdmBits_length]
  have hkN : 8 * k + 8 ≤ N := by omega
  have hchunk := chunksExact8_getElem k (pdmBits N curve) (by rw [hlen]; exact hkN)
  have hchunk_eq := pdmBits_chunk N curve k hkN
  have hrange : (List.range 8).map (fun i => bitAt curve (8 * k + i))
      = [bitAt curve (8 * k), bitAt curve (8 * k + 1), bitAt curve (8 * k + 2),
         bitAt curve (8 * k + 3), bitAt curve (8 * k + 4), bitAt curve (8 * k + 5),
         bitAt curve (8 * k + 6), bitAt curve (8 * k + 7)] := by
    simp [List.range_succ]
  obtain ⟨hpack, htb⟩ := pack_eight (bitAt curve (8 * k)) (bitAt curve (8 * k + 1))
    (bitAt curve (8 * k + 2)) (bitAt curve (8 * k + 3)) (bitAt curve (8 * k + 4))
    (bitAt curve (8 * k + 5)) (bitAt curve (8 * k + 6)) (bitAt curve (8 * k + 7))
    (bitAt_le_one curve _) (bitAt_le_one curve _) (bitAt_le_one curve _)
    (bitAt_le_one curve _) (bitAt_le_one curve _) (bitAt_le_one curve _)
    (bitAt_le_one curve _) (bitAt_le_one curve _)
  refine ⟨(chunksExact8 (pdmBits N curve)).map packByte,
    packByte ((List.range 8).map fun i => bitAt curve (8 * k + i)), ?_, ?_, ?_, ?_⟩
  · simp [generate, hN, hblen]
  · rw [List.getElem?_map, hchunk, hchunk_eq]
    rfl
  · rw [hrange]
    exact hpack
  · rw [hrange, htb j hj]
    have hget : [bitAt curve (8 * k), bitAt curve (8 * k + 1), bitAt curve (8 * k + 2),
        bitAt curve (8 * k + 3), bitAt curve (8 * k + 4), bitAt curve (8 * k + 5),
        bitAt curve (8 * k + 6), bitAt curve (8 * k + 7)].getD j 0
        = bitAt curve (8 * k + j) := by
      interval_cases j <;> rfl
    rw [hget]

/-- Witness for `generate_packing` with the constant `1.0` curve at `N = 8`. -/
theorem generate_packing_witness :
    ∃ bytes b, generate 8 (8 / 8) (fun _ => (1 : ℚ)) = some bytes ∧ bytes[0]? = some b ∧
      b = packSpec ((List.range 8).map fun i => bitAt (fun _ => (1 : ℚ)) (8 * 0 + i)) ∧
      b.testBit (7 - 3) = decide (bitAt (fun _ => (1 : ℚ)) (8 * 0 + 3) = 1) :=
  generate_packing 8 (fun _ => (1 : ℚ)) 0 3 (by decide) (by decide) (by decide)

/-- **C6**: for every period `N > 0` and every index, also beyond one period,
the square wave returns exactly `-1.0` when `index % N < N / 2` and `+1.0`
otherwise. -/
theorem square_idx_value_rule (N i : Nat) (hN : 0 < N) :
    (i % N < N / 2 → square_idx N i = some (-1)) ∧
    (¬ i % N < N / 2 → square_idx N i = some 1) := by
  constructor <;> intro h <;> simp [square_idx, hN.ne', h]

/-- Witness for `square_idx_value_rule` at period 4, indices beyond one period. -/
theorem square_idx_value_rule_witness :
    square_idx 4 9 = some (-1) ∧ square_idx 4 11 = some 1 :=
  ⟨(square_idx_value_rule 4 9 (by decide)).1 (by decide),
   (square_idx_value_rule 4 11 (by decide)).2 (by decide)⟩

/-- **C7**: `generate` does not verify the caller-supplied byte count: when it
is smaller than `N / 8` the final `collect` overflows its capacity and faults;
when it is at least `N / 8` the call silently returns `N / 8` bytes regardless
of the declared byte count. -/
theorem generate_byte_count_trusted (N N_8 : Nat) (curve : Nat → ℚ)
    (hN : N % 8 = 0) :
    (N_8 < N / 8 → generate N N_8 curve = none) ∧
    (N / 8 ≤ N_8 → ∃ bytes, generate N N_8 curve = some bytes ∧
      bytes.length = N / 8) := by
  have hblen : ((chunksExact8 (pdmBits N curve)).map packByte).length = N / 8 := by
    simp [chunksExact8_length, pdmBits_length]
  constructor
  · intro h
    simp [generate, hN, hblen]
    omega
  · intro h
    exact ⟨_, by simp [generate, hN, hblen, h], hblen⟩

/-- Witness for `generate_byte_count_trusted`: byte count 1 overflows at
`N = 16`, byte count 4 silently yields 2 bytes. -/
theorem generate_byte_count_trusted_witness :
    generate 16 1 (fun _ => (0 : ℚ)) = none ∧
    ∃ bytes, generate 16 4 (fun _ => (0 : ℚ)) = some bytes ∧
      bytes.length = 16 / 8 :=
  ⟨(generate_byte_count_trusted 16 1 (fun _ => (0 : ℚ)) (by decide)).1 (by decide),
   (generate_byte_count_trusted 16 4 (fun _ => (0 : ℚ)) (by decide)).2 (by decide)⟩

/-- **C10**: the square-wave curve with period 0 faults (`%` by zero) on every
index; with any positive period it returns a value on every index. -/
theorem square_idx_zero_not_total :
    (∀ i, square_idx 0 i = none) ∧
    ∀ N i, 0 < N → (square_idx N i).isSome = true := by
  refine ⟨fun i => rfl, fun N i hN => ?_⟩
  simp [square_idx, hN.ne']

/-- Witness for `square_idx_zero_not_total` at indices 3 and 12. -/
theorem square_idx_zero_not_total_witness :
    square_idx 0 3 = none ∧ (square_idx 5 12).isSome = true :=
  ⟨square_idx_zero_not_total.1 3, square_idx_zero_not_total.2 5 12 (by decide)⟩

end Pdm
